import Mathlib

/-!
Verification of the MailMind ingestion-and-retrieval pipeline.

Texts are modelled as `List Char` (`Str`), mirroring JavaScript strings
character by character.  Each definition is a shallow embedding of the
TypeScript function of the same name; external library calls
(`html-to-text`, `iconv-lite`, the PST reader, `new RegExp`) are modelled
as explicit parameters or as small faithful fragments, documented at the
definition site.
-/

set_option maxRecDepth 4000

abbrev Str := List Char

namespace MailMind

/-! ## chunkString (src/server/routes.ts)

`chunkString(str, size=500, overlap=100)` slides a window over the string:
`end = min(start+size, len)`, pushes `str.slice(start, end)`, breaks when
`end` reaches the length, else advances `start` by `size - overlap`.
The loop is modelled with explicit fuel (`chunkAux`); `none` means the
fuel ran out before the loop finished, so total termination of the source
loop corresponds to `∃ fuel` making the result `some`. -/

/-- JavaScript `String.prototype.slice` index clamping: negative indices
count from the end, everything is clamped into `[0, len]`. -/
def jsSliceIdx (len : Nat) (i : Int) : Nat :=
  if i < 0 then ((len : Int) + i).toNat.min len else i.toNat.min len

/-- JavaScript `str.slice(b, e)` on a character list. -/
def jsSlice (s : Str) (b e : Int) : Str :=
  let b' := jsSliceIdx s.length b
  let e' := jsSliceIdx s.length e
  (s.take e').drop b'

/-- Fuelled body of the `while (start < str.length)` loop of `chunkString`. -/
def chunkAux (s : Str) (size overlap : Int) : Nat → Int → Option (List Str)
  | 0, start => if start < (s.length : Int) then none else some []
  | Nat.succ f, start =>
    if start < (s.length : Int) then
      let e := min (start + size) (s.length : Int)
      let chunk := jsSlice s start e
      if e = (s.length : Int) then some [chunk]
      else (chunkAux s size overlap f (start + size - overlap)).map (chunk :: ·)
    else some []

/-- `chunkString` with explicit fuel for the loop; the source's
`if (!str) return []` guard is kept. -/
def chunkString (s : Str) (size overlap : Int) (fuel : Nat) : Option (List Str) :=
  if s = [] then some [] else chunkAux s size overlap fuel 0

/-- The source loop terminates on input `s` with parameters `size`,
`overlap` iff some amount of fuel suffices. -/
def ChunkTerminates (s : Str) (size overlap : Int) : Prop :=
  ∃ fuel chunks, chunkString s size overlap fuel = some chunks

/-! ## safeBasename (archive parser, src/unnamed/part_003)

`safeBasename` trims, defaults to "attachment", replaces `\` and `/` by
`_`, replaces `: * ? " < > |` by `_`, removes control characters
`\u0000`-`\u001F`, and truncates to 180 characters. -/

/-- JavaScript whitespace for `String.prototype.trim` (the characters that
occur in this code base; exotic Unicode space separators are omitted). -/
def isWsChar (c : Char) : Bool :=
  c = ' ' || c = '\t' || c = '\n' || c = '\r' ||
  c.toNat = 0x0B || c.toNat = 0x0C || c.toNat = 0xA0 || c.toNat = 0xFEFF

/-- JavaScript `String.prototype.trim`. -/
def trimStr (s : Str) : Str :=
  ((s.dropWhile isWsChar).reverse.dropWhile isWsChar).reverse

def isPathSep (c : Char) : Bool := c = '\\' || c = '/'

def isWinHostile (c : Char) : Bool :=
  c = ':' || c = '*' || c = '?' || c = '"' || c = '<' || c = '>' || c = '|'

def safeBasename (name : Str) : Str :=
  let trimmed := if trimStr name = [] then ("attachment".data) else trimStr name
  ((((trimmed.map fun c => if isPathSep c then '_' else c).map
      fun c => if isWinHostile c then '_' else c).filter
      fun c => !(c.toNat ≤ 0x1F)).take 180)

/-- A concrete 1,200-character body used to witness the chunking claim. -/
def aStr1200 : Str := List.replicate 1200 'a'

/-! ## Text normalization (src/unnamed/part_003)

`decodeText`, `looksLikeHtml`, `stripInjectedHeaderBlock`, `normalizeBody`
and `extractBody`, embedded from the newer archive-parser source.  The
byte-reinterpretation / legacy-encoding chain of `decodeText` (Buffer +
iconv-lite, an external library) is abstracted as an explicit function
parameter `fb`; likewise `htmlToPlainText` (html-to-text library plus its
regex catch branch) is a parameter `h2t`. -/

/-- ASCII lower-casing, the fragment of `toLowerCase` exercised here
(also matches SQLite's ASCII-only case-insensitive `LIKE`). -/
def toLowerChar (c : Char) : Char :=
  if 'A' ≤ c ∧ c ≤ 'Z' then Char.ofNat (c.toNat + 32) else c

def lowerStr (s : Str) : Str := s.map toLowerChar

/-- `text.split("\n")`. -/
def splitLines : Str → List Str
  | [] => [[]]
  | c :: rest =>
    if c = '\n' then [] :: splitLines rest
    else
      match splitLines rest with
      | [] => [[c]]
      | line :: more => (c :: line) :: more

/-- `lines.join("\n")`. -/
def joinLines : List Str → Str
  | [] => []
  | [l] => l
  | l :: rest => l ++ '\n' :: joinLines rest

/-- `text.replace(/\r\n/g, "\n")`. -/
def normCRLF : Str → Str
  | [] => []
  | '\r' :: '\n' :: rest => '\n' :: normCRLF rest
  | c :: rest => c :: normCRLF rest

/-- The guard regex of `decodeText`:
`/[�\x00-\x08\x0B\x0C\x0E-\x1F]/` (replacement character, or a control
byte outside tab/LF/CR). -/
def badDecodeChar (c : Char) : Bool :=
  c.toNat = 0xFFFD || c.toNat ≤ 0x08 || c.toNat = 0x0B || c.toNat = 0x0C ||
  (0x0E ≤ c.toNat && c.toNat ≤ 0x1F)

/-- `decodeText(text)`: empty/absent input gives `""`; clean text is
returned as-is; otherwise the external Buffer/iconv recovery chain,
abstracted here as `fb`, runs. -/
def decodeText (fb : Str → Str) : Option Str → Str
  | none => []
  | some t => if t = [] then [] else if t.any badDecodeChar then fb t else t

/-- Substring test used for regex-free `contains` checks and for SQL
`LIKE` patterns without wildcard characters. -/
def containsList (needle : Str) : Str → Bool
  | [] => needle.isEmpty
  | c :: rest => needle.isPrefixOf (c :: rest) || containsList needle rest

/-- `\w` of JavaScript regexes. -/
def wordChar (c : Char) : Bool :=
  ('a' ≤ c && c ≤ 'z') || ('A' ≤ c && c ≤ 'Z') || ('0' ≤ c && c ≤ '9') || c = '_'

/-- The tag alternatives of `/<(html|head|meta|body|span|font|div|p|br|table)\b/i`. -/
def htmlTags : List Str :=
  ["html".data, "head".data, "meta".data, "body".data, "span".data,
   "font".data, "div".data, "p".data, "br".data, "table".data]

/-- Word-boundary `\b` right after a tag name. -/
def tagBoundary : Str → Bool
  | [] => true
  | c :: _ => !wordChar c

/-- Does a `<tag` with word boundary start at the head of `s`
(`s` already lower-cased)? -/
def tagHere (tg s : Str) : Bool := tg.isPrefixOf s && tagBoundary (s.drop tg.length)

/-- Scan for `/<tag\b/` anywhere in the (lower-cased) text. -/
def hasHtmlTag : Str → Bool
  | [] => false
  | c :: rest => (c = '<' && htmlTags.any fun tg => tagHere tg rest) || hasHtmlTag rest

/-- `looksLikeHtml(text)`. -/
def looksLikeHtml (s : Str) : Bool :=
  if s = [] then false
  else
    let t := trimStr s
    "<!DOCTYPE".data.isPrefixOf t || hasHtmlTag (lowerStr t) ||
      containsList ("converted from text/rtf".data) (lowerStr t)

/-- `/^key\s*:/i` applied to an already-trimmed, lower-cased line. -/
def startsColon (s : Str) : Bool :=
  match s.dropWhile isWsChar with
  | ':' :: _ => true
  | _ => false

def keyColonAt (key t : Str) : Bool :=
  key.isPrefixOf t && startsColon (t.drop key.length)

/-- `/^reply\s*required\s*:/i` on a trimmed, lower-cased line. -/
def replyRequiredAt (t : Str) : Bool :=
  "reply".data.isPrefixOf t &&
    (let r := (t.drop 5).dropWhile isWsChar
     "required".data.isPrefixOf r && startsColon (r.drop 8))

/-- One of the nine `headerKeys` regexes matches the trimmed line. -/
def isHeaderKeyLine (line : Str) : Bool :=
  let t := lowerStr line
  keyColonAt "stage".data t || keyColonAt "from".data t || keyColonAt "to".data t ||
  keyColonAt "cc".data t || keyColonAt "bcc".data t || replyRequiredAt t ||
  keyColonAt "date".data t || keyColonAt "sent".data t || keyColonAt "subject".data t

/-- The scan loop of `stripInjectedHeaderBlock`: over at most 15 lines
after the first non-blank one, count consecutive header-key lines
(`.1`) and consumed lines including a terminating blank (`.2`). -/
def scanHeaderLines : List Str → Nat → Nat × Nat
  | _, 0 => (0, 0)
  | [], _ + 1 => (0, 0)
  | l :: rest, k + 1 =>
    if trimStr l = [] then (0, 1)
    else if isHeaderKeyLine (trimStr l) then
      let p := scanHeaderLines rest k
      (p.1 + 1, p.2 + 1)
    else (0, 0)

/-- `stripInjectedHeaderBlock(text)`. -/
def stripInjectedHeaderBlock (text : Str) : Str :=
  if text = [] then []
  else
    let normalized := normCRLF text
    let lines := splitLines normalized
    let start := (lines.takeWhile fun l => trimStr l = []).length
    let p := scanHeaderLines (lines.drop start) 15
    if 3 ≤ p.1 then
      trimStr (joinLines ((lines.drop (start + p.2)).dropWhile fun l => trimStr l = []))
    else trimStr normalized

/-- `line.replace(/[ \t]+$/g, "")`. -/
def stripLineEndWs (l : Str) : Str :=
  (l.reverse.dropWhile fun c => c = ' ' || c = '\t').reverse

/-- Helper for `collapseNL`: `pending` is the length of the newline run
currently being read; a finished run is emitted as `min pending 2`
newlines. -/
def collapseNLAux : Nat → Str → Str
  | pending, [] => List.replicate (min pending 2) '\n'
  | pending, c :: rest =>
    if c = '\n' then collapseNLAux (pending + 1) rest
    else List.replicate (min pending 2) '\n' ++ c :: collapseNLAux 0 rest

/-- `t.replace(/\n{3,}/g, "\n\n")`: each maximal run of three or more
newlines becomes exactly two. -/
def collapseNL (s : Str) : Str := collapseNLAux 0 s

/-- `normalizeBody(text)`. -/
def normalizeBody (t : Str) : Str :=
  if t = [] then []
  else
    trimStr (collapseNL (joinLines
      ((splitLines (stripInjectedHeaderBlock t)).map stripLineEndWs)))

/-- The two body fields of a `PSTMessage` that `extractBody` reads. -/
structure PSTMsg where
  body : Option Str
  bodyHTML : Option Str

/-- `extractBody(email)`: prefer non-HTML plain text, else convert
HTML-shaped plain text, else convert the HTML field, else the trimmed raw
preference; always finish with `normalizeBody`.  `fb` abstracts the
encoding-recovery chain, `h2t` abstracts `htmlToPlainText` (including its
internal try/catch and final trim). -/
def extractBody (fb h2t : Str → Str) (m : PSTMsg) : Str :=
  let bodyRaw := decodeText fb m.body
  let htmlRaw := decodeText fb m.bodyHTML
  if !bodyRaw.isEmpty && !(trimStr bodyRaw).isEmpty && !looksLikeHtml bodyRaw then
    normalizeBody (trimStr bodyRaw)
  else if !bodyRaw.isEmpty && !(trimStr bodyRaw).isEmpty && looksLikeHtml bodyRaw
      && !(h2t bodyRaw).isEmpty then
    normalizeBody (h2t bodyRaw)
  else if !htmlRaw.isEmpty && !(trimStr htmlRaw).isEmpty && !(h2t htmlRaw).isEmpty then
    normalizeBody (h2t htmlRaw)
  else
    normalizeBody (trimStr (if !bodyRaw.isEmpty then bodyRaw else htmlRaw))

/-- The concrete plain-text body of claim C1. -/
def c1Body : Str :=
  "Stage: x\nFrom: a@b.com\nTo: c@d.com\nReply Required: yes\n\nHello world".data

/-- Unicode control characters (category Cc): `U+0000`-`U+001F` and
`U+007F`-`U+009F`. -/
def isControlChar (c : Char) : Bool :=
  c.toNat ≤ 0x1F || (0x7F ≤ c.toNat && c.toNat ≤ 0x9F)

/-- The header scan of `stripInjectedHeaderBlock` run on a whole text:
count of consecutive header-key lines and of consumed lines, starting at
the first non-blank line. -/
def headerScan (t : Str) : Nat × Nat :=
  let lines := splitLines (normCRLF t)
  scanHeaderLines (lines.drop (lines.takeWhile fun l => trimStr l = []).length) 15

/-! ## Lexical scoring (src/server/local-storage.ts and src/unnamed/part_001)

Both storages tokenize the query on whitespace and score a candidate as
the sum over tokens of the token's case-insensitive occurrence count,
counted with a JavaScript regex (`text.match(new RegExp(token, flags))`).
The newer SQLite scorer first applies `escapeRegExp` to the token and
wraps regex construction in try/catch; the PostgreSQL scorer (and the
older SQLite scorer, identical code) passes the raw token to
`new RegExp`, which throws on malformed patterns.  `new RegExp` itself is
external; it is modelled by `compileRegex`, a faithful fragment covering
the patterns these call sites can build: literal characters, `.`, and
backslash escapes compile; an unescaped group/class/quantifier
metacharacter — e.g. the lone `"("`, which JavaScript rejects with
"Unterminated group" — fails to compile. -/

/-- One regex atom of the modelled fragment: a literal character or `.`. -/
inductive RAtom where
  | lit (c : Char)
  | dot
deriving DecidableEq

/-- The characters escaped by
`escapeRegExp(s) = s.replace(/[.*+?^$()|[\]\\]/g, "\\$&")`
(the character class also contains the two curly braces). -/
def metaChars : Str :=
  ['.', '*', '+', '?', '^', '$', Char.ofNat 0x7B, Char.ofNat 0x7D,
   '(', ')', '|', '[', ']', '\\']

/-- `escapeRegExp` of the newer SQLite storage. -/
def escapeRegExp : Str → Str
  | [] => []
  | c :: rest =>
    if c ∈ metaChars then '\\' :: c :: escapeRegExp rest
    else c :: escapeRegExp rest

/-- Model of `new RegExp(pattern)` on the fragment described above;
`none` models a thrown `SyntaxError`. -/
def compileRegex : Str → Option (List RAtom)
  | [] => some []
  | c :: rest =>
    if c = '\\' then
      match rest with
      | [] => none
      | d :: rest2 => (compileRegex rest2).map (RAtom.lit d :: ·)
    else if c = '.' then (compileRegex rest).map (RAtom.dot :: ·)
    else if c ∈ metaChars then none
    else (compileRegex rest).map (RAtom.lit c :: ·)

/-- `.` matches everything but line terminators; a literal matches itself. -/
def atomMatches : RAtom → Char → Bool
  | .lit c, d => c = d
  | .dot, d => !(d = '\n' || d = '\r' || d.toNat = 0x2028 || d.toNat = 0x2029)

/-- Does the fixed-length pattern match a prefix of `s`? -/
def matchesHere : List RAtom → Str → Bool
  | [], _ => true
  | _ :: _, [] => false
  | a :: p, c :: s => atomMatches a c && matchesHere p s

/-- The global-match loop of `text.match(re)` counting non-overlapping
matches left to right; `skip` is the number of positions still covered by
the previous match. -/
def countMAux (p : List RAtom) : Str → Nat → Nat
  | [], 0 => if p = [] then 1 else 0
  | [], _ + 1 => 0
  | _ :: s, skip + 1 => countMAux p s skip
  | c :: s, 0 =>
    if matchesHere p (c :: s) then 1 + countMAux p s (p.length - 1)
    else countMAux p s 0

/-- Number of matches of a compiled pattern in `s` (`match(...)?.length`). -/
def countMatches (p : List RAtom) (s : Str) : Nat := countMAux p s 0

/-- Number of literal, non-overlapping occurrences of `pat` in `text`. -/
def countOcc (text pat : Str) : Nat := countMatches (pat.map RAtom.lit) text

/-- `scoreText` of the newer SQLite storage (local-storage.ts:619):
lower-cases, escapes each token, counts matches; regex construction
failures are caught and skipped, so it never throws. -/
def scoreTextLocal (text : Str) (tokens : List Str) : Nat :=
  if text.isEmpty || tokens.isEmpty then 0
  else
    (tokens.map fun tr =>
      let tok := escapeRegExp (lowerStr tr)
      if tok.isEmpty then 0
      else
        match compileRegex tok with
        | some p => countMatches p (lowerStr text)
        | none => 0).sum

/-- Token loop of the PostgreSQL `scoreText`: the raw lower-cased token
goes straight to `new RegExp`, so a malformed token throws
(`Except.error`). -/
def scoreTextPgAux (lower : Str) : List Str → Nat → Except Unit Nat
  | [], acc => .ok acc
  | t :: ts, acc =>
    match compileRegex (lowerStr t) with
    | none => .error ()
    | some p => scoreTextPgAux lower ts (acc + countMatches p lower)

/-- `scoreText` of the PostgreSQL storage (part_001:68) and of the older
SQLite storage (local-storage.ts:26), which have identical bodies. -/
def scoreTextPg (text : Str) (tokens : List Str) : Except Unit Nat :=
  if text.isEmpty || tokens.isEmpty then .ok 0
  else scoreTextPgAux (lowerStr text) tokens 0

/-- `tokenize(query) = query.trim().split(/\s+/).filter(t => t.length > 0)`:
the maximal whitespace-free runs of the query.  `cur` accumulates the
current run in reverse. -/
def tokensAux : Str → Str → List Str
  | cur, [] => if cur = [] then [] else [cur.reverse]
  | cur, c :: rest =>
    if isWsChar c then
      if cur = [] then tokensAux [] rest else cur.reverse :: tokensAux [] rest
    else tokensAux (c :: cur) rest

def tokenizeStr (q : Str) : List Str := tokensAux [] (trimStr q)

/-! ## searchEmails (LocalSQLiteStorage, local-storage.ts:1008, and
DatabaseStorage, part_001:148)

An email row together with its joined attachment rows; `attachText` is
the SQL `GROUP_CONCAT(COALESCE(a.extracted_text, ''), '\n\n')`.
SQL `LIKE '%token%'` / `ILIKE` is modelled as ASCII-case-insensitive
substring containment — exact for patterns free of the LIKE wildcards
`%` and `_`, which holds for every token appearing in the claims. -/

structure AttRec where
  originalName : Str
  filename : Str
  extractedText : Str
deriving DecidableEq

structure EmailRec where
  id : Nat
  subject : Str
  body : Str
  sender : Str
  date : Str
  atts : List AttRec
deriving DecidableEq

/-- `GROUP_CONCAT` of the attachments' extracted text, separator `"\n\n"`. -/
def joinNl2 : List Str → Str
  | [] => []
  | [t] => t
  | t :: rest => t ++ '\n' :: '\n' :: joinNl2 rest

def attachText (e : EmailRec) : Str := joinNl2 (e.atts.map AttRec.extractedText)

/-- The scoring text
`` `${subject} ${body} ${sender} ${date} ${attachments_text}` ``. -/
def textToScore (e : EmailRec) : Str :=
  e.subject ++ ' ' :: e.body ++ ' ' :: e.sender ++ ' ' :: e.date ++ ' ' :: attachText e

/-- `field LIKE '%t%'` (SQLite LIKE is ASCII-case-insensitive). -/
def likeContains (field t : Str) : Bool :=
  containsList (lowerStr t) (lowerStr field)

/-- One token's candidate test of the SQLite `WHERE` clause: subject,
body, sender, date, or any joined attachment row's original name,
filename or extracted text. -/
def candMatch (e : EmailRec) (t : Str) : Bool :=
  likeContains e.subject t || likeContains e.body t || likeContains e.sender t ||
  likeContains e.date t ||
  e.atts.any fun a =>
    likeContains a.originalName t || likeContains a.filename t ||
      likeContains a.extractedText t

/-- The `likeTokens` preprocessing: trim, keep length ≥ 2, at most 12. -/
def likeTokensOf (tokens : List Str) : List Str :=
  ((tokens.map trimStr).filter fun t => 2 ≤ t.length).take 12

/-- A search hit as assembled by both `searchEmails` implementations
(`mailId` kept numeric; the TS code stringifies it). -/
structure SearchHit where
  mailId : Nat
  subject : Str
  score : Nat
  sender : Str
  date : Str
  body : Str
deriving DecidableEq

def mkHit (e : EmailRec) (score : Nat) : SearchHit :=
  { mailId := e.id
    subject := if e.subject.isEmpty then "(제목 없음)".data else e.subject
    score := score
    sender := e.sender
    date := e.date
    body := e.body }

/-- Strict comparator of `scored.sort((a, b) => b.score - a.score)`. -/
def hitGt (a b : SearchHit) : Bool := decide (b.score < a.score)

/-- Stable insertion for descending sort: `x` passes every strictly
greater element and lands before the first element not greater than it
(ties keep scan order, as the stable JS sort does). -/
def insDescBy (gt : α → α → Bool) (x : α) : List α → List α
  | [] => [x]
  | y :: rest => if gt y x then y :: insDescBy gt x rest else x :: y :: rest

/-- Stable descending sort by a strict comparator. -/
def sortDescBy (gt : α → α → Bool) : List α → List α
  | [] => []
  | x :: rest => insDescBy gt x (sortDescBy gt rest)

/-- `LocalSQLiteStorage.searchEmails` (local-storage.ts:1008): tokenize;
keep trimmed tokens of length ≥ 2, at most 12; candidate rows by
per-token OR over the LIKE tests (SQL `LIMIT 500`); score each candidate
over subject+body+sender+date+attachment text; drop zero scores; sort by
score descending; return the first `max(1, topK)`. -/
def searchEmailsLocal (corpus : List EmailRec) (query : Str) (topK : Nat) :
    List SearchHit :=
  let tokens := tokenizeStr query
  if tokens.isEmpty then []
  else
    let likeTokens := likeTokensOf tokens
    if likeTokens.isEmpty then []
    else
      let rows := (corpus.filter fun e => likeTokens.any fun t => candMatch e t).take 500
      let scored :=
        (rows.map fun e => mkHit e (scoreTextLocal (textToScore e) tokens)).filter
          fun r => 0 < r.score
      (sortDescBy hitGt scored).take (max 1 topK)

/-- The `ILIKE '%query%'` candidate test of `DatabaseStorage.searchEmails`
(part_001:148): the *whole* query as one substring, over subject, body,
sender, date. -/
def candMatchPg (e : EmailRec) (q : Str) : Bool :=
  likeContains e.subject q || likeContains e.body q || likeContains e.sender q ||
  likeContains e.date q

/-- `DatabaseStorage.searchEmails` (part_001:148): whole-query ILIKE
candidates (SQL `LIMIT 100`), then the raw-regex scorer — which can
throw — over subject+body, zero-score filter, descending sort,
`slice(0, max(1, topK))`. -/
def searchEmailsPg (corpus : List EmailRec) (query : Str) (topK : Nat) :
    Except Unit (List SearchHit) :=
  let tokens := tokenizeStr query
  if tokens.isEmpty then .ok []
  else
    let rows := (corpus.filter fun e => candMatchPg e query).take 100
    match rows.mapM (fun e =>
        (scoreTextPg (e.subject ++ ' ' :: e.body) tokens).map fun sc => mkHit e sc) with
    | .error err => .error err
    | .ok scored =>
      .ok ((sortDescBy hitGt (scored.filter fun r => 0 < r.score)).take (max 1 topK))

/-- Concrete corpus records witnessing the lexical-search claim. -/
def emailA : EmailRec :=
  { id := 1, subject := "invoice invoice invoice".data, body := "payment".data,
    sender := [], date := [], atts := [] }

def emailB : EmailRec :=
  { id := 2, subject := "invoice".data, body := "see attached".data,
    sender := [], date := [], atts := [] }

/-- A record whose fields contain `"("`, witnessing that the raw-regex
scorer throws on that query. -/
def emailParen : EmailRec :=
  { id := 7, subject := "(a".data, body := "(b".data,
    sender := [], date := [], atts := [] }


/-! ## Vector retrieval (src/unnamed/part_002, searchRagChunks)

`searchRagChunks` delegates to SQL over pgvector:
`similarity = 1 - cosineDistance(embedding, query)`, `WHERE similarity >
0.3`, `ORDER BY similarity DESC`, `LIMIT topK`.  Embeddings are modelled
as rational vectors; the similarity itself is the real number
`dot/(‖q‖·‖e‖)` (`simR`).  Because the comparisons the SQL engine makes
are sign tests and comparisons of quotients by positive square roots,
they are decidable over ℚ by cross-multiplying and squaring: `simGtCore`
and `thrCore` below are those decidable forms, and the bridge lemmas
prove them equivalent to the real-valued comparisons.  The threshold
literal `0.3` is read as 3/10. -/

def dotQ : List ℚ → List ℚ → ℚ
  | [], _ => 0
  | _, [] => 0
  | a :: as, b :: bs => a * b + dotQ as bs

def sumSq (v : List ℚ) : ℚ := dotQ v v

structure RagChunk where
  id : Nat
  mailId : Nat
  subject : Str
  content : Str
  embedding : List ℚ

/-- Decidable form of `3/10 < a/√d` for `0 ≤ d` (and `a = 0` when
`d = 0`). -/
def thrCore (a d : ℚ) : Bool :=
  decide (0 < a) && decide (9 * d < 100 * a ^ 2)

/-- `WHERE similarity > 0.3` on a chunk. -/
def simAboveThr (q e : List ℚ) : Bool :=
  thrCore (dotQ q e) (sumSq q * sumSq e)

/-- Decidable form of `b/√d2 < a/√d1` under the same conventions. -/
def simGtCore (a b d1 d2 : ℚ) : Bool :=
  if d1 = 0 then (if d2 = 0 then false else decide (b < 0))
  else if d2 = 0 then decide (0 < a)
  else if 0 < a then (if b ≤ 0 then true else decide (b ^ 2 * d1 < a ^ 2 * d2))
  else if 0 ≤ b then false
  else decide (a ^ 2 * d2 < b ^ 2 * d1)

/-- `ORDER BY similarity DESC` comparison: is chunk `e1` strictly more
similar to the query than `e2`? -/
def simGtB (q e1 e2 : List ℚ) : Bool :=
  simGtCore (dotQ q e1) (dotQ q e2) (sumSq q * sumSq e1) (sumSq q * sumSq e2)

/-- The real-valued cosine similarity `1 - (embedding <=> query)` that
the SQL engine computes: `dot/(‖q‖·‖e‖)`.  By Lean's division
convention a zero norm yields similarity 0, which the strict threshold
excludes, matching SQL's exclusion of such rows.  This definition only
appears in specifications; the executable search uses the decidable
comparisons above. -/
noncomputable def simR (q e : List ℚ) : ℝ :=
  ((dotQ q e : ℚ) : ℝ) /
    (Real.sqrt ((sumSq q : ℚ) : ℝ) * Real.sqrt ((sumSq e : ℚ) : ℝ))

/-- `searchRagChunks(queryEmbedding, topK)`: keep chunks with similarity
strictly above the threshold, order by similarity descending, return at
most `topK` rows. -/
def searchRagChunks (chunks : List RagChunk) (qe : List ℚ) (topK : Nat) :
    List RagChunk :=
  (sortDescBy (fun c1 c2 => simGtB qe c1.embedding c2.embedding)
    (chunks.filter fun c => simAboveThr qe c.embedding)).take topK

/-! ## PST traversal (src/unnamed/part_003, processFolder/parsePSTFile)

The PST container is an external library; the traversal is modelled on a
folder tree.  A `node` folder yields subfolders and a sequence of entry
outcomes — `Except.error m` models an exception thrown while parsing one
message (caught by the inner try/catch of `processFolder`).  A `crash`
folder models a folder whose enumeration calls throw at first access:
its own catch block appends one error and the parent's loop continues.
The message payload is an arbitrary type `α`. -/

inductive PFolder (α : Type) where
  | crash (name : Str) (msg : Str) : PFolder α
  | node (name : Str) (subs : List (PFolder α)) (entries : List (Except Str α)) :
      PFolder α

/-- The error string appended by the folder-level catch block. -/
def folderErr (name msg : Str) : Str :=
  "Error processing folder ".data ++ name ++ ": ".data ++ msg

/-- The error string appended by the per-entry catch block. -/
def entryErr (msg : Str) : Str := "Error parsing email: ".data ++ msg

/-- `processFolder(folder, emails, errors)`: recurse into subfolders
first, then iterate this folder's entries, appending parsed emails and
caught errors; exceptions of one entry or one subfolder never abort the
loop. -/
def processFolder : PFolder α → List α × List Str
  | .crash name msg => ([], [folderErr name msg])
  | .node _ subs entries =>
    let sub := subs.attach.foldl
      (fun acc x => (acc.1 ++ (processFolder x.1).1, acc.2 ++ (processFolder x.1).2))
      ([], [])
    let ent := entries.foldl
      (fun acc e =>
        match e with
        | .ok a => (acc.1 ++ [a], acc.2)
        | .error m => (acc.1, acc.2 ++ [entryErr m]))
      ([], [])
    (sub.1 ++ ent.1, sub.2 ++ ent.2)
termination_by f => sizeOf f
decreasing_by
  all_goals
    have := List.sizeOf_lt_of_mem x.2
    simp only [PFolder.node.sizeOf_spec]
    omega

/-- The result record of `parsePSTFile`. -/
structure PSTResult (α : Type) where
  emails : List α
  totalCount : Nat
  errorCount : Nat
  errors : List Str

/-- `parsePSTFile(filePath)`: opening the archive yields either the root
folder or a fatal open error. -/
def parsePSTFile (arc : Except Str (PFolder α)) : PSTResult α :=
  match arc with
  | .error e =>
    { emails := [], totalCount := 0, errorCount := 1,
      errors := ["Failed to open PST file: ".data ++ e] }
  | .ok root =>
    let r := processFolder root
    { emails := r.1, totalCount := r.1.length, errorCount := r.2.length,
      errors := r.2 }

/-- Specification: every successfully parsed entry of the whole tree, in
depth-first traversal order (subfolders before own entries). -/
def goodEntries : PFolder α → List α
  | .crash _ _ => []
  | .node _ subs entries =>
    (subs.attach.map fun x => goodEntries x.1).flatten ++
      entries.filterMap fun e => match e with | .ok a => some a | .error _ => none
termination_by f => sizeOf f
decreasing_by
  have := List.sizeOf_lt_of_mem x.2
  simp only [PFolder.node.sizeOf_spec]
  omega

/-- Specification: every caught error of the whole tree, in traversal
order. -/
def treeErrors : PFolder α → List Str
  | .crash name msg => [folderErr name msg]
  | .node _ subs entries =>
    (subs.attach.map fun x => treeErrors x.1).flatten ++
      entries.filterMap fun e =>
        match e with | .ok _ => none | .error m => some (entryErr m)
termination_by f => sizeOf f
decreasing_by
  have := List.sizeOf_lt_of_mem x.2
  simp only [PFolder.node.sizeOf_spec]
  omega

/-! ## Helper lemmas on substrings, matching and scoring -/

lemma infix_of_pre {p l : Str} (h : p <+: l) : p <:+: l := by
  obtain ⟨t, rfl⟩ := h
  exact ⟨[], t, rfl⟩

lemma escapeRegExp_ne_nil {s : Str} (h : s ≠ []) : escapeRegExp s ≠ [] := by
  cases s with
  | nil => exact absurd rfl h
  | cons c rest => by_cases hm : c ∈ metaChars <;> simp [escapeRegExp, hm]

/-- Escaping always yields a compilable pattern of literal atoms. -/
lemma compile_escape : ∀ s : Str, compileRegex (escapeRegExp s) = some (s.map RAtom.lit) := by
  intro s
  induction s with
  | nil => rfl
  | cons c rest ih =>
    by_cases hm : c ∈ metaChars
    · simp [escapeRegExp, hm, compileRegex, ih]
    · have hbs : c ≠ '\\' := by intro h; subst h; exact hm (by decide)
      have hdot : c ≠ '.' := by intro h; subst h; exact hm (by decide)
      simp only [escapeRegExp, if_neg hm]
      rw [compileRegex.eq_def]
      simp [hbs, hdot, hm, ih]

/-- A pattern of literal atoms matches at the head iff the word is a
prefix there. -/
lemma matchesLit_iff : ∀ (pat s : Str),
    matchesHere (pat.map RAtom.lit) s = true ↔ pat <+: s := by
  intro pat
  induction pat with
  | nil => intro s; simp [matchesHere, List.nil_prefix]
  | cons c p ih =>
    intro s
    cases s with
    | nil => simp [matchesHere]
    | cons d s' => simp [matchesHere, atomMatches, ih, List.cons_prefix_cons]

/-- A positive match count exhibits a suffix where the pattern matches. -/
lemma countMAux_pos (p : List RAtom) :
    ∀ (s : Str) (skip : Nat), 0 < countMAux p s skip →
      ∃ t : Str, t <:+ s ∧ matchesHere p t = true := by
  intro s
  induction s with
  | nil =>
    intro skip h
    match skip with
    | 0 =>
      by_cases hp : p = []
      · exact ⟨[], List.suffix_rfl, by simp [hp, matchesHere]⟩
      · simp [countMAux, hp] at h
    | k + 1 => simp [countMAux] at h
  | cons c s ih =>
    intro skip h
    match skip with
    | k + 1 =>
      obtain ⟨t, ht, hm⟩ := ih k (by simpa [countMAux] using h)
      exact ⟨t, ht.trans (List.suffix_cons c s), hm⟩
    | 0 =>
      by_cases hm : matchesHere p (c :: s) = true
      · exact ⟨c :: s, List.suffix_rfl, hm⟩
      · obtain ⟨t, ht, hmm⟩ := ih 0 (by simpa [countMAux, hm] using h)
        exact ⟨t, ht.trans (List.suffix_cons c s), hmm⟩

/-- A token with a positive occurrence count occurs as a substring. -/
lemma infix_of_countOcc_pos {t pat : Str} (h : 0 < countOcc t pat) : pat <:+: t := by
  obtain ⟨u, hu, hm⟩ := countMAux_pos (pat.map RAtom.lit) t 0 h
  obtain ⟨v, hv⟩ := (matchesLit_iff pat u).mp hm
  obtain ⟨w, hw⟩ := hu
  exact ⟨w, v, by rw [← hw, ← hv, List.append_assoc]⟩

/-- A word avoiding the separator that is a prefix of `a ++ c :: b` is a
prefix of `a` already. -/
lemma prefix_through_sep {c : Char} :
    ∀ {p : Str} (a : Str) {b : Str}, c ∉ p → p <+: a ++ c :: b → p <+: a := by
  intro p a
  induction a generalizing p with
  | nil =>
    intro b hc h
    match p, h with
    | [], _ => exact List.nil_prefix
    | d :: p', h =>
      rw [List.nil_append, List.cons_prefix_cons] at h
      exact absurd (List.mem_cons_self d p') (by rw [h.1] at hc ⊢; exact hc)
  | cons x a ih =>
    intro b hc h
    match p, h with
    | [], _ => exact List.nil_prefix
    | d :: p', h =>
      rw [List.cons_append, List.cons_prefix_cons] at h
      obtain ⟨rfl, h2⟩ := h
      exact List.cons_prefix_cons.mpr
        ⟨rfl, ih (fun hmem => hc (List.mem_cons_of_mem _ hmem)) h2⟩

/-- A word avoiding the separator that occurs in `a ++ c :: b` occurs
wholly inside `a` or wholly inside `b`. -/
lemma infix_through_sep {c : Char} :
    ∀ {p b : Str} (a : Str), c ∉ p → p <:+: a ++ c :: b → p <:+: a ∨ p <:+: b := by
  intro p b a
  induction a with
  | nil =>
    intro hc h
    rw [List.nil_append] at h
    rcases List.infix_cons_iff.mp h with hpre | hinf
    · have : p <+: ([] : Str) := prefix_through_sep [] hc (by simpa using hpre)
      left
      simpa using infix_of_pre this
    · exact Or.inr hinf
  | cons x a ih =>
    intro hc h
    rw [List.cons_append] at h
    rcases List.infix_cons_iff.mp h with hpre | hinf
    · exact Or.inl (infix_of_pre (prefix_through_sep (x :: a) hc
        (by rw [List.cons_append]; exact hpre)))
    · rcases ih hc hinf with h1 | h2
      · exact Or.inl (List.infix_cons h1)
      · exact Or.inr h2

/-- A word avoiding `\n` occurring in the `"\n\n"`-joined list occurs
inside one of the pieces (or is empty). -/
lemma infix_joinNl2 {p : Str} (hn : ('\n') ∉ p) :
    ∀ ts : List Str, p <:+: joinNl2 ts → (∃ t ∈ ts, p <:+: t) ∨ p = [] := by
  intro ts
  induction ts with
  | nil =>
    intro h
    right
    simpa [joinNl2] using h
  | cons t rest ih =>
    intro h
    cases rest with
    | nil =>
      left
      exact ⟨t, by simp, by simpa [joinNl2] using h⟩
    | cons t2 rest2 =>
      rw [show joinNl2 (t :: t2 :: rest2) = t ++ '\n' :: '\n' :: joinNl2 (t2 :: rest2)
        from rfl] at h
      rcases infix_through_sep t hn h with h1 | h2
      · exact Or.inl ⟨t, by simp, h1⟩
      · rcases List.infix_cons_iff.mp h2 with hpre | hinf
        · match p, hpre with
          | [], _ => exact Or.inr rfl
          | d :: p', hpre =>
            rw [List.cons_prefix_cons] at hpre
            exact absurd (List.mem_cons_self d p') (by rw [hpre.1] at hn ⊢; exact hn)
        · rcases ih hinf with ⟨u, hu, hiu⟩ | hnil
          · exact Or.inl ⟨u, List.mem_cons_of_mem _ hu, hiu⟩
          · exact Or.inr hnil

lemma containsList_iff {n : Str} : ∀ {h : Str}, containsList n h = true ↔ n <:+: h := by
  intro h
  induction h with
  | nil => simp [containsList, List.isEmpty_iff]
  | cons c rest ih =>
    simp [containsList, List.isPrefixOf_iff_prefix, ih, List.infix_cons_iff]

lemma toLowerChar_space : toLowerChar ' ' = ' ' := rfl

lemma toLowerChar_nl : toLowerChar '\n' = '\n' := rfl

lemma lowerStr_joinNl2 : ∀ ts : List Str,
    lowerStr (joinNl2 ts) = joinNl2 (ts.map lowerStr) := by
  intro ts
  induction ts with
  | nil => rfl
  | cons t rest ih =>
    cases rest with
    | nil => rfl
    | cons t2 rest2 =>
      show lowerStr (t ++ '\n' :: '\n' :: joinNl2 (t2 :: rest2)) = _
      rw [show joinNl2 ((t :: t2 :: rest2).map lowerStr) =
        lowerStr t ++ '\n' :: '\n' :: joinNl2 ((t2 :: rest2).map lowerStr) from rfl]
      rw [← ih]
      simp [lowerStr, toLowerChar_nl]

/-- The lower-cased scoring text decomposes into the lower-cased fields
joined by the literal separators. -/
lemma lower_textToScore (e : EmailRec) :
    lowerStr (textToScore e) =
      lowerStr e.subject ++ ' ' :: (lowerStr e.body ++ ' ' :: (lowerStr e.sender ++
        ' ' :: (lowerStr e.date ++ ' ' ::
          joinNl2 ((e.atts.map AttRec.extractedText).map lowerStr)))) := by
  rw [← lowerStr_joinNl2]
  simp [textToScore, attachText, lowerStr, toLowerChar_space]

/-- A nonempty, already-lower-case token free of spaces and newlines that
occurs in the scoring text makes the row a candidate of the SQLite
`WHERE` clause. -/
lemma candMatch_of_infix {e : EmailRec} {tok : Str}
    (hlow : lowerStr tok = tok) (hne : tok ≠ [])
    (hsp : (' ') ∉ tok) (hnl : ('\n') ∉ tok)
    (h : tok <:+: lowerStr (textToScore e)) : candMatch e tok = true := by
  rw [lower_textToScore] at h
  simp only [candMatch, likeContains, hlow, Bool.or_eq_true, containsList_iff]
  rcases infix_through_sep _ hsp h with h1 | h
  · exact Or.inl (Or.inl (Or.inl (Or.inl h1)))
  rcases infix_through_sep _ hsp h with h2 | h
  · exact Or.inl (Or.inl (Or.inl (Or.inr h2)))
  rcases infix_through_sep _ hsp h with h3 | h
  · exact Or.inl (Or.inl (Or.inr h3))
  rcases infix_through_sep _ hsp h with h4 | h
  · exact Or.inl (Or.inr h4)
  rcases infix_joinNl2 hnl _ h with ⟨u, hu, hiu⟩ | hnil
  · rw [List.mem_map] at hu
    obtain ⟨v, hv, rfl⟩ := hu
    rw [List.mem_map] at hv
    obtain ⟨a, ha, rfl⟩ := hv
    refine Or.inr (List.any_eq_true.mpr ⟨a, ha, ?_⟩)
    simp only [likeContains, hlow, Bool.or_eq_true, containsList_iff]
    exact Or.inr hiu
  · exact absurd hnil hne

lemma textToScore_ne_nil (e : EmailRec) : textToScore e ≠ [] := by
  simp [textToScore]

/-- The SQLite scorer never throws and computes, for nonempty texts and
tokens, the sum over tokens of the literal case-insensitive occurrence
counts. -/
lemma scoreTextLocal_eq_sum (text : Str) (tokens : List Str)
    (h1 : text ≠ []) (h3 : ∀ t ∈ tokens, t ≠ []) :
    scoreTextLocal text tokens =
      (tokens.map fun t => countOcc (lowerStr text) (lowerStr t)).sum := by
  cases tokens with
  | nil => simp [scoreTextLocal]
  | cons t ts =>
    have htb : text.isEmpty = false := by simpa [List.isEmpty_iff] using h1
    simp only [scoreTextLocal, htb, List.isEmpty_cons, Bool.false_or,
      Bool.false_eq_true, if_false]
    congr 1
    apply List.map_congr_left
    intro u hu
    have hu' : u ≠ [] := h3 u hu
    have hlu : lowerStr u ≠ [] := by simpa [lowerStr] using hu'
    have hem : (escapeRegExp (lowerStr u)).isEmpty = false := by
      simpa [List.isEmpty_iff] using escapeRegExp_ne_nil hlu
    simp only [hem, compile_escape, countOcc, Bool.false_eq_true, if_false]

/-- The concrete two-token instantiation used by the ranking claim. -/
lemma scoreTextLocal_two (text : Str) (ht : text ≠ []) :
    scoreTextLocal text ["invoice".data, "payment".data] =
      countOcc (lowerStr text) "invoice".data +
        countOcc (lowerStr text) "payment".data := by
  rw [scoreTextLocal_eq_sum text _ ht (by decide)]
  have h1 : lowerStr "invoice".data = "invoice".data := by decide
  have h2 : lowerStr "payment".data = "payment".data := by decide
  simp [h1, h2]

/-! ## Helper lemmas for the similarity bridge -/

lemma dotQ_self_nonneg (v : List ℚ) : 0 ≤ dotQ v v := by
  induction v with
  | nil => simp [dotQ]
  | cons a as ih => simp only [dotQ]; nlinarith [mul_self_nonneg a]

lemma sumSq_nonneg (v : List ℚ) : 0 ≤ sumSq v := dotQ_self_nonneg v

lemma mem_zero_of_sumSq_eq_zero {v : List ℚ} (h : sumSq v = 0) : ∀ x ∈ v, x = 0 := by
  induction v with
  | nil => simp
  | cons a as ih =>
    have h' : a * a + sumSq as = 0 := h
    have h1 : a * a = 0 := by nlinarith [mul_self_nonneg a, sumSq_nonneg as]
    have h2 : sumSq as = 0 := by nlinarith [mul_self_nonneg a, sumSq_nonneg as]
    intro x hx
    rcases List.mem_cons.mp hx with rfl | hx
    · exact mul_self_eq_zero.mp h1
    · exact ih h2 x hx

lemma dotQ_zero_left {q : List ℚ} (e : List ℚ) (h : ∀ x ∈ q, x = 0) :
    dotQ q e = 0 := by
  induction q generalizing e with
  | nil => cases e <;> simp [dotQ]
  | cons a as ih =>
    cases e with
    | nil => simp [dotQ]
    | cons b bs =>
      have ha : a = 0 := h a (by simp)
      have hr := ih bs (fun x hx => h x (List.mem_cons_of_mem _ hx))
      simp [dotQ, ha, hr]

lemma dotQ_zero_right (q : List ℚ) {e : List ℚ} (h : ∀ x ∈ e, x = 0) :
    dotQ q e = 0 := by
  induction q generalizing e with
  | nil => cases e <;> simp [dotQ]
  | cons a as ih =>
    cases e with
    | nil => simp [dotQ]
    | cons b bs =>
      have hb : b = 0 := h b (by simp)
      have hr := ih (e := bs) (fun x hx => h x (List.mem_cons_of_mem _ hx))
      simp [dotQ, hb, hr]

lemma dotQ_zero_of_prod {q e : List ℚ} (h : sumSq q * sumSq e = 0) :
    dotQ q e = 0 := by
  rcases mul_eq_zero.mp h with h' | h'
  · exact dotQ_zero_left e (mem_zero_of_sumSq_eq_zero h')
  · exact dotQ_zero_right q (mem_zero_of_sumSq_eq_zero h')

lemma simR_eq (q e : List ℚ) :
    simR q e = ((dotQ q e : ℚ) : ℝ) /
      Real.sqrt (((sumSq q * sumSq e : ℚ) : ℝ)) := by
  rw [simR, ← Real.sqrt_mul (by exact_mod_cast sumSq_nonneg q)]
  push_cast
  ring_nf

lemma thrCore_iff {a d : ℚ} (hd : 0 ≤ d) (h0 : d = 0 → a = 0) :
    thrCore a d = true ↔ (3 : ℝ) / 10 < (a : ℝ) / Real.sqrt (d : ℝ) := by
  rcases eq_or_lt_of_le hd with hdz | hdp
  · have ha : a = 0 := h0 hdz.symm
    simp [thrCore, ha, ← hdz]
    norm_num
  · have hsd : (0 : ℝ) < Real.sqrt (d : ℝ) := Real.sqrt_pos.mpr (by exact_mod_cast hdp)
    have hsq : Real.sqrt (d : ℝ) ^ 2 = (d : ℝ) := Real.sq_sqrt (by exact_mod_cast hd)
    rw [thrCore, Bool.and_eq_true, decide_eq_true_eq, decide_eq_true_eq,
      lt_div_iff hsd]
    constructor
    · rintro ⟨hap, hsqr⟩
      have haR : (0 : ℝ) < (a : ℝ) := by exact_mod_cast hap
      have hsqrR : (9 : ℝ) * (d : ℝ) < 100 * (a : ℝ) ^ 2 := by exact_mod_cast hsqr
      nlinarith [Real.sqrt_nonneg (d : ℝ)]
    · intro h
      have haR : (0 : ℝ) < (a : ℝ) :=
        lt_trans (mul_pos (by norm_num) hsd) h
      refine ⟨by exact_mod_cast haR, ?_⟩
      have : (9 : ℝ) * (d : ℝ) < 100 * (a : ℝ) ^ 2 := by nlinarith
      exact_mod_cast this

lemma simGtCore_iff {a b d1 d2 : ℚ} (hd1 : 0 ≤ d1) (hd2 : 0 ≤ d2)
    (h10 : d1 = 0 → a = 0) (h20 : d2 = 0 → b = 0) :
    simGtCore a b d1 d2 = true ↔
      (b : ℝ) / Real.sqrt (d2 : ℝ) < (a : ℝ) / Real.sqrt (d1 : ℝ) := by
  by_cases h1 : d1 = 0
  · have ha := h10 h1
    by_cases h2 : d2 = 0
    · have hb := h20 h2
      simp [simGtCore, h1, h2, ha, hb]
    · have hd2p : (0 : ℚ) < d2 := lt_of_le_of_ne hd2 (Ne.symm h2)
      have hs2 : (0 : ℝ) < Real.sqrt (d2 : ℝ) := Real.sqrt_pos.mpr (by exact_mod_cast hd2p)
      simp only [simGtCore, if_pos h1, if_neg h2, decide_eq_true_eq]
      rw [ha, h1]
      push_cast
      rw [zero_div, div_lt_iff hs2, zero_mul]
      exact_mod_cast Iff.rfl
  · have hd1p : (0 : ℚ) < d1 := lt_of_le_of_ne hd1 (Ne.symm h1)
    have hs1 : (0 : ℝ) < Real.sqrt (d1 : ℝ) := Real.sqrt_pos.mpr (by exact_mod_cast hd1p)
    have hsq1 : Real.sqrt (d1 : ℝ) ^ 2 = (d1 : ℝ) := Real.sq_sqrt (by exact_mod_cast hd1)
    by_cases h2 : d2 = 0
    · have hb := h20 h2
      simp only [simGtCore, if_neg h1, if_pos h2, decide_eq_true_eq]
      rw [hb, h2]
      push_cast
      rw [zero_div, lt_div_iff hs1, zero_mul]
      exact_mod_cast Iff.rfl
    · have hd2p : (0 : ℚ) < d2 := lt_of_le_of_ne hd2 (Ne.symm h2)
      have hs2 : (0 : ℝ) < Real.sqrt (d2 : ℝ) := Real.sqrt_pos.mpr (by exact_mod_cast hd2p)
      have hsq2 : Real.sqrt (d2 : ℝ) ^ 2 = (d2 : ℝ) := Real.sq_sqrt (by exact_mod_cast hd2)
      rw [div_lt_div_iff hs2 hs1]
      simp only [simGtCore, if_neg h1, if_neg h2]
      by_cases hap : 0 < a
      · have haR : (0 : ℝ) < (a : ℝ) := by exact_mod_cast hap
        simp only [if_pos hap]
        by_cases hbn : b ≤ 0
        · have hbR : (b : ℝ) ≤ 0 := by exact_mod_cast hbn
          simp only [if_pos hbn, true_iff]
          nlinarith [mul_pos haR hs2, mul_nonneg (neg_nonneg.mpr hbR) hs1.le]
        · have hbp : (0 : ℚ) < b := not_le.mp hbn
          have hbR : (0 : ℝ) < (b : ℝ) := by exact_mod_cast hbp
          simp only [if_neg hbn, decide_eq_true_eq]
          have key : (b : ℝ) * Real.sqrt (d1 : ℝ) < (a : ℝ) * Real.sqrt (d2 : ℝ) ↔
              (b : ℝ) ^ 2 * (d1 : ℝ) < (a : ℝ) ^ 2 * (d2 : ℝ) := by
            rw [← pow_lt_pow_iff_left₀ (mul_pos hbR hs1).le (mul_pos haR hs2).le
              (by norm_num : (2 : ℕ) ≠ 0), mul_pow, mul_pow, hsq1, hsq2]
          rw [key]
          exact_mod_cast Iff.rfl
      · have haR : (a : ℝ) ≤ 0 := by exact_mod_cast not_lt.mp hap
        simp only [if_neg hap]
        by_cases hb0 : 0 ≤ b
        · have hbR : (0 : ℝ) ≤ (b : ℝ) := by exact_mod_cast hb0
          simp only [if_pos hb0]
          constructor
          · intro h; exact absurd h (by simp)
          · intro h
            exfalso
            nlinarith [mul_nonneg hbR hs1.le, mul_pos hs1 hs2]
        · have hbneg' : b < 0 := not_le.mp hb0
          have hbR : (b : ℝ) < 0 := by exact_mod_cast hbneg'
          simp only [if_neg hb0, decide_eq_true_eq]
          have haneg : (a : ℝ) * Real.sqrt (d2 : ℝ) ≤ 0 := by nlinarith
          have hbneg : (b : ℝ) * Real.sqrt (d1 : ℝ) ≤ 0 := by nlinarith
          have key : (b : ℝ) * Real.sqrt (d1 : ℝ) < (a : ℝ) * Real.sqrt (d2 : ℝ) ↔
              (a : ℝ) ^ 2 * (d2 : ℝ) < (b : ℝ) ^ 2 * (d1 : ℝ) := by
            rw [← neg_lt_neg_iff, ← pow_lt_pow_iff_left₀ (neg_nonneg.mpr haneg)
              (neg_nonneg.mpr hbneg) (by norm_num : (2 : ℕ) ≠ 0),
              neg_sq, neg_sq, mul_pow, mul_pow, hsq1, hsq2]
          rw [key]
          exact_mod_cast Iff.rfl

lemma simAboveThr_iff (q e : List ℚ) :
    simAboveThr q e = true ↔ (3 : ℝ) / 10 < simR q e := by
  rw [simR_eq, simAboveThr]
  exact thrCore_iff (mul_nonneg (sumSq_nonneg q) (sumSq_nonneg e))
    (fun h => dotQ_zero_of_prod h)

lemma simGtB_iff (q e1 e2 : List ℚ) :
    simGtB q e1 e2 = true ↔ simR q e2 < simR q e1 := by
  rw [simR_eq, simR_eq, simGtB]
  exact simGtCore_iff (mul_nonneg (sumSq_nonneg q) (sumSq_nonneg e1))
    (mul_nonneg (sumSq_nonneg q) (sumSq_nonneg e2))
    (fun h => dotQ_zero_of_prod h) (fun h => dotQ_zero_of_prod h)

lemma simGtB_false_iff (q e1 e2 : List ℚ) :
    simGtB q e1 e2 = false ↔ simR q e1 ≤ simR q e2 := by
  rw [← Bool.not_eq_true, simGtB_iff, not_lt]

/-! ## Helper lemmas for the descending insertion sort -/

lemma mem_insDescBy {α : Type} (gt : α → α → Bool) (x : α) :
    ∀ (l : List α) (z : α), z ∈ insDescBy gt x l ↔ z = x ∨ z ∈ l := by
  intro l
  induction l with
  | nil => intro z; simp [insDescBy]
  | cons y rest ih =>
    intro z
    by_cases h : gt y x = true
    · simp only [insDescBy, h, if_true, List.mem_cons, ih]
      tauto
    · have h' : gt y x = false := by
        cases hg : gt y x
        · rfl
        · exact absurd hg h
      simp only [insDescBy, h', Bool.false_eq_true, if_false, List.mem_cons]

lemma mem_sortDescBy {α : Type} (gt : α → α → Bool) :
    ∀ (l : List α) (z : α), z ∈ sortDescBy gt l ↔ z ∈ l := by
  intro l
  induction l with
  | nil => intro z; simp [sortDescBy]
  | cons x rest ih =>
    intro z
    simp only [sortDescBy, mem_insDescBy, ih, List.mem_cons]

lemma pairwise_insDescBy {α : Type} (gt : α → α → Bool)
    (hasym : ∀ a b, gt a b = true → gt b a = false)
    (htrans : ∀ a b c, gt b a = false → gt c b = false → gt c a = false)
    (x : α) :
    ∀ l : List α, List.Pairwise (fun a b => gt b a = false) l →
      List.Pairwise (fun a b => gt b a = false) (insDescBy gt x l) := by
  intro l
  induction l with
  | nil => intro _; simp [insDescBy]
  | cons y rest ih =>
    intro hl
    rcases List.pairwise_cons.mp hl with ⟨hy, hrest⟩
    by_cases hgt : gt y x = true
    · simp only [insDescBy, hgt, if_true]
      refine List.pairwise_cons.mpr ⟨?_, ih hrest⟩
      intro z hz
      rcases (mem_insDescBy gt x rest z).mp hz with rfl | hzr
      · exact hasym y z hgt
      · exact hy z hzr
    · have hgt' : gt y x = false := by
        cases hg : gt y x
        · rfl
        · exact absurd hg hgt
      simp only [insDescBy, hgt', Bool.false_eq_true, if_false]
      refine List.pairwise_cons.mpr ⟨?_, List.pairwise_cons.mpr ⟨hy, hrest⟩⟩
      intro z hz
      rcases List.mem_cons.mp hz with rfl | hzr
      · exact hgt'
      · exact htrans x y z hgt' (hy z hzr)

lemma pairwise_sortDescBy {α : Type} (gt : α → α → Bool)
    (hasym : ∀ a b, gt a b = true → gt b a = false)
    (htrans : ∀ a b c, gt b a = false → gt c b = false → gt c a = false) :
    ∀ l : List α, List.Pairwise (fun a b => gt b a = false) (sortDescBy gt l) := by
  intro l
  induction l with
  | nil => simp [sortDescBy]
  | cons x rest ih => exact pairwise_insDescBy gt hasym htrans x _ ih

/-! ## Helper lemmas for the PST traversal -/

lemma foldl_pair_append {α β : Type} (g : β → List α × List Str) :
    ∀ (l : List β) (acc : List α × List Str),
      l.foldl (fun acc b => (acc.1 ++ (g b).1, acc.2 ++ (g b).2)) acc =
        (acc.1 ++ (l.map fun b => (g b).1).flatten,
         acc.2 ++ (l.map fun b => (g b).2).flatten) := by
  intro l
  induction l with
  | nil => intro acc; simp
  | cons b l ih => intro acc; simp [ih]

lemma foldl_entries {α : Type} (l : List (Except Str α)) :
    ∀ acc : List α × List Str,
      l.foldl (fun acc e =>
        match e with
        | .ok a => (acc.1 ++ [a], acc.2)
        | .error m => (acc.1, acc.2 ++ [entryErr m])) acc =
      (acc.1 ++ l.filterMap (fun e =>
        match e with | .ok a => some a | .error _ => none),
       acc.2 ++ l.filterMap (fun e =>
        match e with | .ok _ => none | .error m => some (entryErr m))) := by
  induction l with
  | nil => intro acc; simp
  | cons e l ih =>
    intro acc
    cases e with
    | ok a => simp [ih, List.filterMap_cons]
    | error m => simp [ih, List.filterMap_cons]

/-- The imperative, error-accumulating traversal computes exactly the
specification lists: every parsed entry of the tree is collected and
every caught error is reported — no failure aborts the traversal. -/
theorem processFolder_eq {α : Type} : ∀ f : PFolder α,
    processFolder f = (goodEntries f, treeErrors f)
  | .crash name msg => by
    simp [processFolder, goodEntries, treeErrors]
  | .node name subs entries => by
    have ih : ∀ x : {y // y ∈ subs},
        processFolder x.1 = (goodEntries x.1, treeErrors x.1) :=
      fun x => processFolder_eq x.1
    have h1 : (subs.attach.map fun x => (processFolder x.1).1) =
        subs.attach.map fun x => goodEntries x.1 :=
      List.map_congr_left fun x _ => by rw [ih x]
    have h2 : (subs.attach.map fun x => (processFolder x.1).2) =
        subs.attach.map fun x => treeErrors x.1 :=
      List.map_congr_left fun x _ => by rw [ih x]
    simp only [processFolder, goodEntries, treeErrors]
    rw [foldl_pair_append (fun x : {y // y ∈ subs} => processFolder x.1) subs.attach
      ([], [])]
    rw [foldl_entries entries ([], [])]
    simp only [List.nil_append]
    rw [h1, h2]
termination_by f => sizeOf f
decreasing_by
  have := List.sizeOf_lt_of_mem x.2
  simp only [PFolder.node.sizeOf_spec]
  omega

/-! ## Helper lemmas for `chunkAux` -/

lemma chunkAux_isSome (s : Str) (size overlap : Int) (hstep : overlap < size) :
    ∀ (fuel : Nat) (start : Int), (s.length : Int) - start ≤ (fuel : Nat) →
      (chunkAux s size overlap fuel start).isSome := by
  intro fuel
  induction fuel with
  | zero =>
    intro start hle
    have : ¬ start < (s.length : Int) := by omega
    simp [chunkAux, this]
  | succ f ih =>
    intro start hle
    by_cases hlt : start < (s.length : Int)
    · by_cases hend : min (start + size) (s.length : Int) = (s.length : Int)
      · simp [chunkAux, hlt, hend]
      · have hrec := ih (start + size - overlap) (by push_cast at hle ⊢; omega)
        simp [chunkAux, hlt, hend]
        exact hrec
    · simp [chunkAux, hlt]

lemma chunkAux_stuck (s : Str) (size : Int) :
    ∀ (fuel : Nat) (start : Int), start < (s.length : Int) →
      min (start + size) (s.length : Int) ≠ (s.length : Int) →
      size - size = 0 →
      chunkAux s size size fuel start = none := by
  intro fuel
  induction fuel with
  | zero => intro start hlt _ _; simp [chunkAux, hlt]
  | succ f ih =>
    intro start hlt hend _
    have : start + size - size = start := by ring
    simp [chunkAux, hlt, hend, this, ih start hlt hend (by ring)]

end MailMind

namespace MailMind

/-! ## Claim theorems for chunking and sanitization -/

/-- C6: for every 1,200-character string, `chunkString` with size 500 and
overlap 100 produces exactly the slices `[0,500)`, `[400,900)`, `[800,1200)`;
consecutive chunks share exactly 100 characters (the last 100 of one chunk
are the first 100 of the next), and the first chunk followed by each later
chunk minus its first 100 characters reconstructs the original string. -/
theorem chunkString_1200_roundtrip (s : Str) (h : s.length = 1200) :
    chunkString s 500 100 1201 =
      some [s.take 500, (s.drop 400).take 500, (s.drop 800).take 400] ∧
    (s.take 500).drop 400 = ((s.drop 400).take 500).take 100 ∧
    ((s.drop 400).take 500).drop 400 = ((s.drop 800).take 400).take 100 ∧
    s.take 500 ++ (((s.drop 400).take 500).drop 100 ++
      ((s.drop 800).take 400).drop 100) = s := by
  have hne : s ≠ [] := by intro hs; rw [hs] at h; simp at h
  have hlen : (s.length : Int) = 1200 := by simp [h]
  refine ⟨?_, ?_, ?_, ?_⟩
  · have e3 : chunkAux s 500 100 1199 800 = some [jsSlice s 800 1200] := by
      rw [show (1199 : Nat) = 1198 + 1 from rfl]
      simp [chunkAux, hlen]
    have e2 : chunkAux s 500 100 1200 400 =
        some [jsSlice s 400 900, jsSlice s 800 1200] := by
      rw [show (1200 : Nat) = 1199 + 1 from rfl]
      simp [chunkAux, hlen]
    have e1 : chunkAux s 500 100 1201 0 =
        some [jsSlice s 0 500, jsSlice s 400 900, jsSlice s 800 1200] := by
      rw [show (1201 : Nat) = 1200 + 1 from rfl]
      simp [chunkAux, hlen]
    have s1 : jsSlice s 0 500 = s.take 500 := by
      simp [jsSlice, jsSliceIdx, h]
    have s2 : jsSlice s 400 900 = (s.drop 400).take 500 := by
      simp only [jsSlice, jsSliceIdx, h]
      norm_num
      rw [show ((900 : Int).toNat) = 900 from rfl, show ((400 : Int).toNat) = 400 from rfl,
        List.drop_take]
    have s3 : jsSlice s 800 1200 = (s.drop 800).take 400 := by
      simp only [jsSlice, jsSliceIdx, h]
      norm_num
      rw [show ((1200 : Int).toNat) = 1200 from rfl, show ((800 : Int).toNat) = 800 from rfl,
        List.drop_take]
    unfold chunkString
    rw [if_neg hne, e1, s1, s2, s3]
  · rw [List.take_take, List.drop_take]; norm_num
  · rw [List.take_take, List.drop_take, List.drop_drop]; norm_num
  · have p1 : ((s.drop 400).take 500).drop 100 = (s.drop 500).take 400 := by
      rw [List.drop_take, List.drop_drop]
    have p2 : ((s.drop 800).take 400).drop 100 = (s.drop 900).take 300 := by
      rw [List.drop_take, List.drop_drop]
    rw [p1, p2, ← List.append_assoc, ← List.take_add]
    norm_num
    rw [← List.take_add]
    norm_num
    omega

/-- Witness for the C6 theorem at a concrete 1,200-character input. -/
theorem chunkString_1200_roundtrip_witness :
    chunkString aStr1200 500 100 1201 =
      some [aStr1200.take 500, (aStr1200.drop 400).take 500,
        (aStr1200.drop 800).take 400] ∧
    (aStr1200.take 500).drop 400 = ((aStr1200.drop 400).take 500).take 100 ∧
    ((aStr1200.drop 400).take 500).drop 400 =
      ((aStr1200.drop 800).take 400).take 100 ∧
    aStr1200.take 500 ++ (((aStr1200.drop 400).take 500).drop 100 ++
      ((aStr1200.drop 800).take 400).drop 100) = aStr1200 :=
  chunkString_1200_roundtrip aStr1200 (by simp [aStr1200])

/-- C7 counterexample: the claim quantifies over *every* choice of `size`
and `overlap`, but with `size = overlap` (here both `1`) the window never
advances on the two-character string "ab", so no amount of fuel finishes
the loop: the source loop runs forever. -/
theorem chunkString_nontermination_cex : ¬ ChunkTerminates ['a', 'b'] 1 1 := by
  rintro ⟨fuel, chunks, hsome⟩
  have hstuck : chunkAux ['a', 'b'] 1 1 fuel 0 = none :=
    chunkAux_stuck ['a', 'b'] 1 fuel 0 (by decide) (by decide) (by ring)
  rw [chunkString, if_neg (by decide), hstuck] at hsome
  exact Option.noConfusion hsome

/-- C7 (amended): whenever `overlap < size`, `chunkString` terminates on
every input string — the window advances by `size - overlap ≥ 1` each
iteration, so `length + 1` loop iterations always suffice and a finite
chunk list is returned. -/
theorem chunkString_terminates (s : Str) (size overlap : Int)
    (h : overlap < size) :
    ∃ chunks, chunkString s size overlap (s.length + 1) = some chunks := by
  by_cases hs : s = []
  · exact ⟨[], by simp [chunkString, hs]⟩
  · have hsome := chunkAux_isSome s size overlap h (s.length + 1) 0 (by push_cast; omega)
    rcases Option.isSome_iff_exists.mp hsome with ⟨chunks, hc⟩
    exact ⟨chunks, by simp [chunkString, hs, hc]⟩

/-- Witness for the amended C7 theorem at a concrete input. -/
theorem chunkString_terminates_witness :
    ∃ chunks, chunkString "hello".data 2 1 ("hello".data.length + 1) = some chunks :=
  chunkString_terminates "hello".data 2 1 (by decide)

/-- C9: sanitizing the attachment name `"../../evil:name?.pdf"` yields
exactly `".._.._evil_name_.pdf"`: no path separator, no `:`, no `?`,
and at most 180 characters. -/
theorem safeBasename_evil_sanitized :
    safeBasename "../../evil:name?.pdf".data = ".._.._evil_name_.pdf".data ∧
    (safeBasename "../../evil:name?.pdf".data).all
      (fun c => !(isPathSep c || c = ':' || c = '?')) = true ∧
    (safeBasename "../../evil:name?.pdf".data).length ≤ 180 := by
  refine ⟨by decide, by decide, by decide⟩

/-- C1: on the plain-text body
`"Stage: x\nFrom: a@b.com\nTo: c@d.com\nReply Required: yes\n\nHello world"`
(no HTML field), `extractBody` returns exactly `"Hello world"`, whatever
the external encoding-recovery (`fb`) and HTML conversion (`h2t`)
functions do: four consecutive header-key lines are found, so the header
block and the separating blank line are dropped. -/
theorem extractBody_strips_header_block (fb h2t : Str → Str) :
    extractBody fb h2t ⟨some c1Body, none⟩ = "Hello world".data := by
  have hd : decodeText fb (some c1Body) = c1Body := by
    simp only [decodeText]
    rw [if_neg (by decide), if_neg (by decide)]
  have hn : decodeText fb none = [] := rfl
  simp only [extractBody, hd, hn]
  rw [if_pos (by decide)]
  decide

/-- C3 counterexample: the single-character text `U+FFFD` is valid text
with no control character, yet `decodeText` does not take the identity
fast path on it: it hands the text to the byte-reinterpretation fallback
chain (modelled by the explicit `fb` parameter), so the result is
whatever the fallback produces, not necessarily the input. -/
theorem decodeText_fffd_cex :
    isControlChar (Char.ofNat 0xFFFD) = false ∧
    decodeText (fun _ => "X".data) (some [Char.ofNat 0xFFFD]) = "X".data ∧
    decodeText (fun _ => "X".data) (some [Char.ofNat 0xFFFD]) ≠ [Char.ofNat 0xFFFD] := by
  refine ⟨by decide, by decide, by decide⟩

/-- C3 (amended): for every text containing no control character and no
`U+FFFD` replacement character, `decodeText` is the identity — the clean
text guard passes and no byte reinterpretation or legacy-encoding
fallback (`fb`) is attempted. -/
theorem decodeText_id_of_clean (fb : Str → Str) (t : Str)
    (h : ∀ c ∈ t, isControlChar c = false ∧ c.toNat ≠ 0xFFFD) :
    decodeText fb (some t) = t := by
  have hbad : t.any badDecodeChar = false := by
    rw [List.any_eq_false]
    intro c hc
    rcases h c hc with ⟨hctl, hfd⟩
    simp only [isControlChar, Bool.or_eq_false_iff, Bool.and_eq_false_iff,
      decide_eq_false_iff_not, not_le, not_lt] at hctl
    simp only [badDecodeChar, Bool.or_eq_true, Bool.and_eq_true,
      decide_eq_true_eq, not_or]
    omega
  by_cases ht : t = []
  · simp [decodeText, ht]
  · simp [decodeText, ht, hbad]

/-- Witness for the amended C3 theorem at a concrete clean input. -/
theorem decodeText_id_of_clean_witness :
    decodeText id (some "Hello world".data) = "Hello world".data :=
  decodeText_id_of_clean id "Hello world".data (by decide)

/-- C4 counterexample: `" hello "` has zero header-key lines (< 3), yet
`stripInjectedHeaderBlock` does not return it unchanged — the source
always returns `normalized.trim()`, which trims the outer whitespace. -/
theorem stripInjectedHeaderBlock_unchanged_cex :
    (headerScan " hello ".data).1 < 3 ∧
    stripInjectedHeaderBlock " hello ".data ≠ " hello ".data := by
  refine ⟨by decide, by decide⟩

/-- C4 (amended): whenever the scan (at most 15 lines from the first
non-blank line) finds fewer than three consecutive header-key lines,
`stripInjectedHeaderBlock` strips nothing: it returns the text unaltered
except for CRLF normalization and outer trimming; in particular a text
with a single header-like line followed by prose, LF line endings and no
outer whitespace is returned exactly as given. -/
theorem stripInjectedHeaderBlock_below_threshold :
    (∀ t : Str, (headerScan t).1 < 3 →
      stripInjectedHeaderBlock t = trimStr (normCRLF t)) ∧
    stripInjectedHeaderBlock "From: a@b.com\nSee you tomorrow.".data =
      "From: a@b.com\nSee you tomorrow.".data := by
  constructor
  · intro t h
    by_cases ht : t = []
    · simp [stripInjectedHeaderBlock, ht, normCRLF, trimStr]
    · simp only [stripInjectedHeaderBlock, if_neg ht]
      rw [if_neg ?hc]
      case hc =>
        simp only [headerScan] at h
        omega
  · decide

/-- Witness for the amended C4 theorem at a concrete input with one
header-like line and trailing whitespace. -/
theorem stripInjectedHeaderBlock_below_threshold_witness :
    stripInjectedHeaderBlock "To: x\nbody text ".data =
      trimStr (normCRLF "To: x\nbody text ".data) :=
  stripInjectedHeaderBlock_below_threshold.1 "To: x\nbody text ".data (by decide)

/-- C2: for any corpus consisting of a message A whose scoring text
contains "invoice" three times and "payment" once and a message B whose
scoring text contains "invoice" once and "payment" not at all (in either
order), `searchEmails` of the SQLite storage with query
"invoice payment" and topK 5 returns exactly A's hit (score 4) before
B's hit (score 1): at most 5 hits, all scores positive, and B qualifies
as a candidate through its single token, because the candidate set ORs
the per-token substring tests. -/
theorem searchEmailsLocal_ranks (A B : EmailRec)
    (hA1 : countOcc (lowerStr (textToScore A)) "invoice".data = 3)
    (hA2 : countOcc (lowerStr (textToScore A)) "payment".data = 1)
    (hB1 : countOcc (lowerStr (textToScore B)) "invoice".data = 1)
    (hB2 : countOcc (lowerStr (textToScore B)) "payment".data = 0)
    (corpus : List EmailRec) (hc : corpus = [A, B] ∨ corpus = [B, A]) :
    searchEmailsLocal corpus "invoice payment".data 5 = [mkHit A 4, mkHit B 1] ∧
    (likeTokensOf (tokenizeStr "invoice payment".data)).any
      (fun t => candMatch B t) = true ∧
    (searchEmailsLocal corpus "invoice payment".data 5).length ≤ 5 ∧
    (∀ r ∈ searchEmailsLocal corpus "invoice payment".data 5, 0 < r.score) := by
  have hcandA : candMatch A "invoice".data = true :=
    candMatch_of_infix (by decide) (by decide) (by decide) (by decide)
      (infix_of_countOcc_pos (by rw [hA1]; norm_num))
  have hcandB : candMatch B "invoice".data = true :=
    candMatch_of_infix (by decide) (by decide) (by decide) (by decide)
      (infix_of_countOcc_pos (by rw [hB1]; norm_num))
  have hsA : scoreTextLocal (textToScore A) ["invoice".data, "payment".data] = 4 := by
    rw [scoreTextLocal_two _ (textToScore_ne_nil A), hA1, hA2]
  have hsB : scoreTextLocal (textToScore B) ["invoice".data, "payment".data] = 1 := by
    rw [scoreTextLocal_two _ (textToScore_ne_nil B), hB1, hB2]
  have hq : tokenizeStr "invoice payment".data = ["invoice".data, "payment".data] := by
    decide
  have hlk : likeTokensOf ["invoice".data, "payment".data] =
      ["invoice".data, "payment".data] := by decide
  have hmain : searchEmailsLocal corpus "invoice payment".data 5 =
      [mkHit A 4, mkHit B 1] := by
    rcases hc with rfl | rfl <;>
    · simp only [searchEmailsLocal, hq, hlk]
      simp [List.filter_cons, List.any_cons, hcandA, hcandB, hsA, hsB,
        sortDescBy, insDescBy, hitGt, mkHit, show max (1 : Nat) 5 = 5 from rfl,
        List.take]
  refine ⟨hmain, ?_, ?_, ?_⟩
  · rw [hq, hlk]
    simp [hcandB]
  · rw [hmain]; simp
  · rw [hmain]
    intro r hr
    rcases List.mem_cons.mp hr with rfl | hr
    · simp [mkHit]
    · rcases List.mem_cons.mp hr with rfl | hr
      · simp [mkHit]
      · simp at hr

/-- Witness for the C2 theorem on a concrete two-message corpus. -/
theorem searchEmailsLocal_ranks_witness :
    searchEmailsLocal [emailA, emailB] "invoice payment".data 5 =
      [mkHit emailA 4, mkHit emailB 1] :=
  (searchEmailsLocal_ranks emailA emailB (by decide) (by decide) (by decide)
    (by decide) [emailA, emailB] (Or.inl rfl)).1

/-- C10: the two lexical scorers differ in totality.  The SQLite scorer
escapes every token, so it never throws and returns the sum of literal
case-insensitive occurrence counts; the PostgreSQL scorer (and the older
SQLite scorer, same code) feeds the raw token to `new RegExp`, so query
token `"("` makes `searchEmails` throw instead of returning hits, and
token `"."` is counted as a pattern (3 matches in "a.b") rather than as
the literal substring (1 occurrence). -/
theorem scorers_differ_in_totality :
    (∀ (text : Str) (tokens : List Str), text ≠ [] → (∀ t ∈ tokens, t ≠ []) →
      scoreTextLocal text tokens =
        (tokens.map fun t => countOcc (lowerStr text) (lowerStr t)).sum) ∧
    searchEmailsPg [emailParen] "(".data 5 = .error () ∧
    scoreTextPg "a.b".data [".".data] = .ok 3 ∧
    countOcc (lowerStr "a.b".data) ".".data = 1 := by
  refine ⟨scoreTextLocal_eq_sum, by rfl, by rfl, by rfl⟩

/-- Witness instantiating the universally quantified part of the C10
theorem at a concrete text and token list. -/
theorem scorers_differ_in_totality_witness :
    scoreTextLocal "ab".data ["a".data] =
      (["a".data].map fun t => countOcc (lowerStr "ab".data) (lowerStr t)).sum :=
  scorers_differ_in_totality.1 "ab".data ["a".data] (by decide) (by decide)

/-- C8: `parsePSTFile` never aborts traversal early: for every folder
tree, every successfully parsed entry is collected and every per-entry
or per-folder failure only appends its description to the error list;
only a failure to open the archive is fatal, yielding an empty email
list and the single open-failure error. -/
theorem parsePSTFile_never_aborts (α : Type) :
    (∀ e : Str, parsePSTFile (α := α) (.error e) =
      { emails := [], totalCount := 0, errorCount := 1,
        errors := ["Failed to open PST file: ".data ++ e] }) ∧
    (∀ root : PFolder α,
      (parsePSTFile (.ok root)).emails = goodEntries root ∧
      (parsePSTFile (.ok root)).errors = treeErrors root ∧
      (parsePSTFile (.ok root)).totalCount = (goodEntries root).length ∧
      (parsePSTFile (.ok root)).errorCount = (treeErrors root).length) := by
  constructor
  · intro e; rfl
  · intro root
    simp [parsePSTFile, processFolder_eq root]

/-- C5: for every chunk corpus, query embedding and `topK`,
`searchRagChunks` returns only chunks whose cosine similarity to the
query is strictly above the 0.3 threshold (chunks at or below it are
excluded), the returned chunks are ordered by descending similarity, and
at most `topK` chunks are returned. -/
theorem searchRagChunks_spec (chunks : List RagChunk) (qe : List ℚ) (topK : Nat) :
    (∀ c ∈ searchRagChunks chunks qe topK, (3 : ℝ) / 10 < simR qe c.embedding) ∧
    List.Pairwise (fun c1 c2 => simR qe c2.embedding ≤ simR qe c1.embedding)
      (searchRagChunks chunks qe topK) ∧
    (searchRagChunks chunks qe topK).length ≤ topK := by
  have hasym : ∀ a b : RagChunk, simGtB qe a.embedding b.embedding = true →
      simGtB qe b.embedding a.embedding = false := by
    intro a b hab
    exact (simGtB_false_iff qe b.embedding a.embedding).mpr
      ((simGtB_iff qe a.embedding b.embedding).mp hab).le
  have htrans : ∀ a b c : RagChunk, simGtB qe b.embedding a.embedding = false →
      simGtB qe c.embedding b.embedding = false →
      simGtB qe c.embedding a.embedding = false := by
    intro a b c h1 h2
    exact (simGtB_false_iff qe c.embedding a.embedding).mpr
      (le_trans ((simGtB_false_iff qe c.embedding b.embedding).mp h2)
        ((simGtB_false_iff qe b.embedding a.embedding).mp h1))
  refine ⟨?_, ?_, ?_⟩
  · intro c hc
    rw [searchRagChunks] at hc
    have hc1 := List.mem_of_mem_take hc
    have hc2 := (mem_sortDescBy (fun c1 c2 => simGtB qe c1.embedding c2.embedding)
      _ c).mp hc1
    have hf := (List.mem_filter.mp hc2).2
    exact (simAboveThr_iff qe c.embedding).mp hf
  · rw [searchRagChunks]
    have hp := pairwise_sortDescBy (fun c1 c2 => simGtB qe c1.embedding c2.embedding)
      hasym htrans (chunks.filter fun c => simAboveThr qe c.embedding)
    have hp2 := hp.sublist (List.take_sublist topK _)
    refine hp2.imp ?_
    intro a b hab
    exact (simGtB_false_iff qe b.embedding a.embedding).mp hab
  · rw [searchRagChunks]
    exact List.length_take_le topK _

end MailMind
